import Mathlib

/-!
# FreeNOS `BitMap` (include/BitMap.h)

A shallow embedding of the class `BitMap` and the properties of its member functions.

* The object state is the triple of private members `count`, `free`, `map`; the byte
  buffer `map` is a list of naturals below 256.
* `Size`, `Address`, `Error` and `ZERO` come from `Macros.h`, which is not part of the
  sources at hand.  The width `w` of `Size` (in bits) and `sz = sizeof(Address)` (in bytes)
  are parameters of the operations that depend on them; `ZERO` is the constant 0 and
  `Error` is a signed integer, so that a result of `markNext` is an `Int`.
* A failed `assert` and an access outside of the bytes obtained from `new` have no defined
  result; the operations return `none` there.
* A word is read through the `Address *` view of the buffer in little-endian byte order.
* `1 << bit` is the mask with the single bit `bit`, the value `2 ^ bit`.  The expression
  is an `int` of 32 bits, so this is its value converted to `Address` exactly when
  `sizeof(Address) ≤ 4` (shift counts up to 31); the general statements about `markNext`
  are made for `sizeof(Address) ≤ 4`.
* The value returned by `markNext` is the index as an integer; it is the value of the signed
  `Error` when the index is below `2 ^ 31`, which the general statements about `markNext`
  ensure by a bound on the buffer.
* The closed evaluations below are made for `Size` of 32 bits, with `sizeof(Address)` 4 or 8.
-/

/-- The private members of `class BitMap`: total number of bits, unmarked bits remaining,
and the byte buffer. -/
structure BitMap where
  count : Nat
  free : Nat
  map : List Nat
deriving DecidableEq, Repr

/-- The class constructor `BitMap(Size cnt) : count(cnt), free(cnt)` with
`map = new u8[(cnt / 8) + 1]; memset(map, 0, (cnt / 8) + 1);`. -/
def BitMap.ctor (cnt : Nat) : BitMap :=
  { count := cnt, free := cnt, map := List.replicate ((cnt / 8) + 1) 0 }

/-- `bool isMarked(Size bit) const`: `assert(bit < count)` and then
`return map[bit / 8] & (bit % 8);`, the integer converted to `bool`. -/
def BitMap.isMarked (b : BitMap) (bit : Nat) : Option Bool :=
  if bit < b.count then
    match b.map[bit / 8]? with
    | some byte => some (byte &&& (bit % 8) != 0)
    | none => none
  else none

/-- `void mark(Size bit)`: `assert(bit < count)`, and, when `!isMarked(bit)`,
`map[bit / 8] |= 1 << (bit % 8); free--;` (the byte is a `u8`, `free` a `Size` of `w` bits). -/
def BitMap.mark (w : Nat) (b : BitMap) (bit : Nat) : Option BitMap :=
  if bit < b.count then
    match b.isMarked bit, b.map[bit / 8]? with
    | some false, some byte =>
      some { b with
        map := b.map.set (bit / 8) ((byte ||| (1 <<< (bit % 8))) % 256)
        free := (b.free + 2 ^ w - 1) % 2 ^ w }
    | some true, _ => some b
    | _, _ => none
  else none

/-- `void unmark(Size bit)`: `assert(bit < count)`, and, when `isMarked(bit)`,
`map[bit / 8] &= ~(1 << (bit % 8)); free++;`.  Of the complemented mask only the low eight
bits reach the `u8`, which is `255 - (1 << (bit % 8))`. -/
def BitMap.unmark (w : Nat) (b : BitMap) (bit : Nat) : Option BitMap :=
  if bit < b.count then
    match b.isMarked bit, b.map[bit / 8]? with
    | some true, some byte =>
      some { b with
        map := b.map.set (bit / 8) ((byte &&& (255 - (1 <<< (bit % 8)))) % 256)
        free := (b.free + 1) % 2 ^ w }
    | some false, _ => some b
    | _, _ => none
  else none

/-- `u8 * getMap() const`. -/
def BitMap.getMap (b : BitMap) : List Nat := b.map

/-- Value of a sequence of bytes read as one little-endian unsigned integer. -/
def leValue : List Nat → Nat
  | [] => 0
  | x :: xs => x + 256 * leValue xs

/-- The `n` low bytes of `v`, least significant first. -/
def leBytes : Nat → Nat → List Nat
  | 0, _ => []
  | n + 1, v => v % 256 :: leBytes n (v / 256)

/-- `*ptr` for `ptr = ((Address *) (map)) + i`: the `sz` bytes from offset `i * sz` on;
`none` unless all of them lie inside the buffer. -/
def readWord (sz : Nat) (map : List Nat) (i : Nat) : Option Nat :=
  if (i + 1) * sz ≤ map.length then some (leValue ((map.drop (i * sz)).take sz)) else none

/-- `*ptr = v` for `ptr = ((Address *) (map)) + i`; `none` unless the `sz` bytes lie inside
the buffer. -/
def writeWord (sz : Nat) (map : List Nat) (i : Nat) (v : Nat) : Option (List Nat) :=
  if (i + 1) * sz ≤ map.length then
    some (map.take (i * sz) ++ leBytes sz v ++ map.drop ((i + 1) * sz))
  else none

/-- The number of words `markNext` scans:
`Size num = count / sizeof(Address); if (!num || sizeof(Address) % count) num++;`.
The right operand of `||` is evaluated only when `num` is not zero, and a remainder by zero
has no result. -/
def numWords (w sz count : Nat) : Option Nat :=
  let num := count / sz
  if num = 0 then some ((num + 1) % 2 ^ w)
  else if count = 0 then none
  else if sz % count ≠ 0 then some ((num + 1) % 2 ^ w)
  else some num

/-- The inner loop `for (Size bit = ...; bit < sizeof(Address) * 8; bit++)` with `n`
iterations left: the first `bit` with `!(*ptr & 1 << bit)`, if any.  The mask is the single
bit `2 ^ bit`, which is the `int` expression `1 << bit` for `bit ≤ 31`, that is for
`sizeof(Address) ≤ 4`. -/
def findBit (word : Nat) : Nat → Nat → Option Nat
  | 0, _ => none
  | n + 1, bit => if word &&& (1 <<< bit) = 0 then some bit else findBit word n (bit + 1)

/-- The outer loop `for (Size i = ...; i < num; i++)` of `markNext` with `n` iterations
left.  A word different from `(Address) ~ZERO` is searched for a clear bit, which is set in
place (`*ptr |= (1 << bit); free--;`) and returned as `bit + (sizeof(Address) * 8 * i)`;
after the loop the result is `-1`.  As in `findBit` the mask is the single bit `2 ^ bit`
(`sizeof(Address) ≤ 4`), and the index is returned unconverted (exact below `2 ^ 31`). -/
def scanWords (w sz : Nat) (b : BitMap) : Nat → Nat → Option (BitMap × Int)
  | 0, _ => some (b, -1)
  | n + 1, i =>
    match readWord sz b.map i with
    | none => none
    | some word =>
      if word ≠ 2 ^ (sz * 8) - 1 then
        match findBit word (sz * 8) 0 with
        | some bit =>
          match writeWord sz b.map i ((word ||| (1 <<< bit)) % 2 ^ (sz * 8)) with
          | some m =>
            some ({ b with map := m, free := (b.free + 2 ^ w - 1) % 2 ^ w },
              ((bit + (sz * 8 * i) : Nat) : Int))
          | none => none
        | none => scanWords w sz b n (i + 1)
      else scanWords w sz b n (i + 1)

/-- `Error markNext()`: the new state and the returned value. -/
def BitMap.markNext (w sz : Nat) (b : BitMap) : Option (BitMap × Int) :=
  match numWords w sz b.count with
  | none => none
  | some num => scanWords w sz b num 0

/-- A call of one of the three mutating member functions. -/
inductive Call where
  | mark (bit : Nat)
  | unmark (bit : Nat)
  | markNext
deriving DecidableEq, Repr

/-- One call on a state: the new state, and the value returned when the call is
`markNext`. -/
def BitMap.call (w sz : Nat) (b : BitMap) : Call → Option (BitMap × Option Int)
  | .mark bit => (b.mark w bit).map (fun b1 => (b1, none))
  | .unmark bit => (b.unmark w bit).map (fun b1 => (b1, none))
  | .markNext => (b.markNext w sz).map (fun r => (r.1, some r.2))

/-- A sequence of calls, one after the other: the final state and the values returned by
the `markNext` calls, in order. -/
def BitMap.run (w sz : Nat) (b : BitMap) : List Call → Option (BitMap × List Int)
  | [] => some (b, [])
  | c :: cs =>
    match b.call w sz c with
    | none => none
    | some (b1, r) =>
      match BitMap.run w sz b1 cs with
      | none => none
      | some (b2, rs) => some (b2, r.toList ++ rs)

/-- Stored bit `i` of the buffer: bit `i % 8` of byte `i / 8`; `none` outside the buffer. -/
def storedBit (map : List Nat) (i : Nat) : Option Bool :=
  (map[i / 8]?).map (fun byte => (byte >>> (i % 8)) &&& 1 == 1)

/-- A state as the constructor and the member functions produce it: `count` and `free` are
`Size` values, the buffer has the `(count / 8) + 1` bytes of the constructor, and every
element is a `u8`. -/
def BitMap.WF (w : Nat) (b : BitMap) : Prop :=
  b.count < 2 ^ w ∧ b.free < 2 ^ w ∧ b.map.length = (b.count / 8) + 1 ∧ ∀ x ∈ b.map, x < 256

/-- The number of indices `i` in `[0, count)` for which `isMarked(i)` returns `false`. -/
def BitMap.unmarkedCount (b : BitMap) : Nat :=
  ((List.range b.count).filter (fun i => b.isMarked i == some false)).length

/-- The number of positions in `[0, n)` whose stored bit is 0. -/
def zeroBits (map : List Nat) (n : Nat) : Nat :=
  ((List.range n).filter (fun i => storedBit map i == some false)).length


set_option maxRecDepth 100000

/-- C1: a freshly constructed `BitMap(N)` has free count `N`, only zero bytes in its buffer,
and `isMarked(i)` returns `false` for every `i < N`. -/
theorem fresh_state (N : Nat) :
    (BitMap.ctor N).free = N ∧ (BitMap.ctor N).count = N ∧
      (BitMap.ctor N).map.length = (N / 8) + 1 ∧
      (∀ x ∈ (BitMap.ctor N).getMap, x = 0) ∧
      ∀ i, i < N → (BitMap.ctor N).isMarked i = some false := by
  refine ⟨rfl, rfl, by simp [BitMap.ctor], ?_, ?_⟩
  · intro x hx
    simp only [BitMap.getMap, BitMap.ctor] at hx
    exact (List.eq_of_mem_replicate hx)
  · intro i hi
    have hlt : i / 8 < (N / 8) + 1 := by
      have := Nat.div_le_div_right (c := 8) (Nat.le_of_lt hi)
      omega
    simp [BitMap.isMarked, BitMap.ctor, hi, List.getElem?_replicate, hlt]

/-- C1, at a concrete input: in a fresh `BitMap(9)` the query `isMarked(8)` returns `false`. -/
theorem fresh_state_witness : 8 < 9 ∧ (BitMap.ctor 9).isMarked 8 = some false :=
  ⟨by decide, (fresh_state 9).2.2.2.2 8 (by decide)⟩

/-- C2, evaluated: on a fresh `BitMap(1)`, `mark(0)` sets stored bit 0 and leaves a free
count of 0, and `isMarked(0)` then returns `false`. -/
theorem mark_then_isMarked_false :
    (BitMap.ctor 1).mark 32 0 = some ⟨1, 0, [1]⟩ ∧
      storedBit [1] 0 = some true ∧
      BitMap.isMarked ⟨1, 0, [1]⟩ 0 = some false := by
  decide

/-- C3, evaluated: in the state of `BitMap(2)` after `mark(0)`, stored bit 0 is 1 and
`isMarked(0)` returns `false`, stored bit 1 is 0 and `isMarked(1)` returns `true`. -/
theorem isMarked_differs_from_stored_bit :
    (BitMap.ctor 2).mark 32 0 = some ⟨2, 1, [1]⟩ ∧
      storedBit [1] 0 = some true ∧ BitMap.isMarked ⟨2, 1, [1]⟩ 0 = some false ∧
      storedBit [1] 1 = some false ∧ BitMap.isMarked ⟨2, 1, [1]⟩ 1 = some true := by
  decide

/-- C4, evaluated: in the state of `BitMap(1)` after `mark(0)`, where stored bit 0 is 1 and
the free count is 0, `unmark(0)` changes nothing: stored bit 0 is still 1 and the free
count is still 0.  In the state of `BitMap(2)` after `mark(0)`, `isMarked(1)` still returns
`true` after `unmark(1)`. -/
theorem unmark_leaves_bit_set :
    (BitMap.ctor 1).mark 32 0 = some ⟨1, 0, [1]⟩ ∧
      BitMap.unmark 32 ⟨1, 0, [1]⟩ 0 = some ⟨1, 0, [1]⟩ ∧
      storedBit [1] 0 = some true ∧
      BitMap.unmark 32 ⟨2, 1, [1]⟩ 1 = some ⟨2, 2, [1]⟩ ∧
      BitMap.isMarked ⟨2, 2, [1]⟩ 1 = some true := by
  decide

/-- C5, evaluated: on a fresh `BitMap(8)`, whose bit 3 is free, `mark(3)` followed by
`unmark(3)` ends with stored bit 3 equal to 1 and a free count of 7, not 8. -/
theorem mark_unmark_not_restored :
    (BitMap.ctor 8).free = 8 ∧ storedBit (BitMap.ctor 8).map 3 = some false ∧
      (BitMap.ctor 8).run 32 4 [Call.mark 3, Call.unmark 3] = some (⟨8, 7, [8, 0]⟩, []) ∧
      storedBit [8, 0] 3 = some true ∧ BitMap.isMarked ⟨8, 7, [8, 0]⟩ 3 = some false := by
  decide

/-- C6, evaluated: on a fresh `BitMap(2)` the first `mark(0)` lowers the free count from 2
to 1 and the second `mark(0)` lowers it again, to 0; on a fresh `BitMap(1)` the second
`mark(0)` takes the free count from 0 to `2 ^ 32 - 1`. -/
theorem mark_twice_counts_twice :
    (BitMap.ctor 2).mark 32 0 = some ⟨2, 1, [1]⟩ ∧
      BitMap.mark 32 ⟨2, 1, [1]⟩ 0 = some ⟨2, 0, [1]⟩ ∧
      (BitMap.ctor 1).run 32 4 [Call.mark 0, Call.mark 0] = some (⟨1, 4294967295, [1]⟩, []) := by
  decide

/-- C7, evaluated: in the state of `BitMap(2)` after `mark(0)`, stored bit 1 is 0, and yet
`unmark(1)` raises the free count from 1 to 2 and a second `unmark(1)` raises it to 3. -/
theorem unmark_free_bit_counts :
    (BitMap.ctor 2).mark 32 0 = some ⟨2, 1, [1]⟩ ∧
      storedBit [1] 1 = some false ∧
      BitMap.unmark 32 ⟨2, 1, [1]⟩ 1 = some ⟨2, 2, [1]⟩ ∧
      BitMap.unmark 32 ⟨2, 2, [1]⟩ 1 = some ⟨2, 3, [1]⟩ := by
  decide

/-- C8, evaluated: after 64 `markNext` calls on a fresh `BitMap(65)` the 9-byte buffer holds
bits 0..63 set and bit 64 clear; the next `markNext` reads a word that extends past the
buffer and has no result, for `sizeof(Address)` 4 and 8 alike.  The same holds for the first
`markNext` on a fresh `BitMap(1)`.  When bits 0..63 are marked by `mark(0)`, ..., `mark(63)`
instead, every byte ends as 5 and `markNext` returns 1. -/
theorem markNext_reads_past_buffer :
    (BitMap.ctor 65).run 32 4 (List.replicate 64 Call.markNext) =
        some (⟨65, 1, [255, 255, 255, 255, 255, 255, 255, 255, 0]⟩,
          (List.range 64).map Int.ofNat) ∧
      storedBit [255, 255, 255, 255, 255, 255, 255, 255, 0] 64 = some false ∧
      BitMap.markNext 32 4 ⟨65, 1, [255, 255, 255, 255, 255, 255, 255, 255, 0]⟩ = none ∧
      BitMap.markNext 32 8 ⟨65, 1, [255, 255, 255, 255, 255, 255, 255, 255, 0]⟩ = none ∧
      (BitMap.ctor 1).markNext 32 4 = none ∧
      (BitMap.ctor 65).run 32 4 ((List.range 64).map Call.mark ++ [Call.markNext]) =
        some (⟨65, 48, [7, 5, 5, 5, 5, 5, 5, 5, 0]⟩, [1]) := by
  decide

/-- C9, evaluated with `sizeof(Address) = 4`: on a fresh `BitMap(24)` the first 24 `markNext`
calls return 0, 1, ..., 23 and the 25th call returns 24, not -1; on a fresh `BitMap(1)` the
first `markNext` call has no result. -/
theorem markNext_sequence_overruns :
    (BitMap.ctor 24).run 32 4 (List.replicate 25 Call.markNext) =
        some (⟨24, 4294967295, [255, 255, 255, 1]⟩, (List.range 25).map Int.ofNat) ∧
      (BitMap.ctor 1).run 32 4 [Call.markNext] = none := by
  decide

/-- C10, evaluated with `sizeof(Address) = 4`: 31 `markNext` calls on a fresh `BitMap(31)` set
every bit of `[0, 31)`; in that state `markNext` returns 31, and on a fresh `BitMap(0)`
`markNext` has no result. -/
theorem markNext_out_of_range :
    (BitMap.ctor 31).run 32 4 (List.replicate 31 Call.markNext) =
        some (⟨31, 0, [255, 255, 255, 127]⟩, (List.range 31).map Int.ofNat) ∧
      (∀ i < 31, storedBit [255, 255, 255, 127] i = some true) ∧
      BitMap.markNext 32 4 ⟨31, 0, [255, 255, 255, 127]⟩ =
        some (⟨31, 4294967295, [255, 255, 255, 255]⟩, 31) ∧
      (BitMap.ctor 0).markNext 32 4 = none := by
  decide

/-! ## Bits of bytes and words -/

/-- The test made by `storedBit` on a byte is `Nat.testBit`. -/
theorem shiftRight_and_one_beq (x t : Nat) : ((x >>> t) &&& 1 == 1) = x.testBit t := by
  rw [Nat.testBit, Nat.and_one_is_mod, Nat.one_and_eq_mod_two]
  rcases Nat.mod_two_eq_zero_or_one (x >>> t) with h | h <;> simp [h]

/-- Stored bit `8 * p + t` is bit `t` of byte `p`. -/
theorem storedBit_eq (map : List Nat) (j : Nat) :
    storedBit map j = (map[j / 8]?).map (fun byte => byte.testBit (j % 8)) := by
  simp only [storedBit, shiftRight_and_one_beq]

/-- The offset value `k` of a bit position has no bit `k`. -/
theorem testBit_self_eq_false (k : Nat) : k.testBit k = false :=
  Nat.testBit_lt_two_pow (Nat.lt_two_pow k)

/-- The result of masking a byte with an offset `k < 8` is the same for two bytes that agree
on every bit other than bit `k`. -/
theorem and_offset_congr (x y k : Nat) (hk : k < 8)
    (h : ∀ t, t < 8 → t ≠ k → x.testBit t = y.testBit t) : x &&& k = y &&& k := by
  apply Nat.eq_of_testBit_eq
  intro t
  rw [Nat.testBit_and, Nat.testBit_and]
  by_cases htk : t = k
  · subst htk; simp [testBit_self_eq_false]
  · by_cases ht : t < 8
    · rw [h t ht htk]
    · have : k.testBit t = false := by
        apply Nat.testBit_lt_two_pow
        calc k < 8 := hk
          _ ≤ t := by omega
          _ < 2 ^ t := Nat.lt_two_pow t
      simp [this]

/-- Stored bits of a buffer that starts with the bytes `a`. -/
theorem storedBit_append (a l : List Nat) (j : Nat) :
    storedBit (a ++ l) j =
      if j / 8 < a.length then storedBit a j else storedBit l (j - 8 * a.length) := by
  rw [storedBit_eq, storedBit_eq, storedBit_eq, List.getElem?_append]
  by_cases h : j / 8 < a.length
  · simp [h]
  · have e1 : (j - 8 * a.length) / 8 = j / 8 - a.length := by omega
    have e2 : (j - 8 * a.length) % 8 = j % 8 := by omega
    simp [h, e1, e2]

/-- Stored bits of a buffer made of three pieces. -/
theorem storedBit_append3 (pre mid post : List Nat) (j : Nat) :
    storedBit (pre ++ mid ++ post) j =
      if j / 8 < pre.length then storedBit pre j
      else if j / 8 < pre.length + mid.length then storedBit mid (j - 8 * pre.length)
      else storedBit post (j - 8 * (pre.length + mid.length)) := by
  rw [storedBit_append, storedBit_append, List.length_append]
  by_cases h1 : j / 8 < pre.length
  · have : j / 8 < pre.length + mid.length := by omega
    simp [h1, this]
  · simp [h1]

/-- The stored bits of a sequence of bytes are the bits of its little-endian value. -/
theorem storedBit_leValue (l : List Nat) (h : ∀ x ∈ l, x < 256) (j : Nat)
    (hj : j / 8 < l.length) : storedBit l j = some ((leValue l).testBit j) := by
  induction l generalizing j with
  | nil => simp at hj
  | cons x xs ih =>
    have hx : x < 2 ^ 8 := h x (List.mem_cons_self _ _)
    have hv : leValue (x :: xs) = 2 ^ 8 * leValue xs + x := by
      simp [leValue]; omega
    rw [hv, Nat.testBit_mul_pow_two_add _ hx]
    by_cases h8 : j < 8
    · have e1 : j / 8 = 0 := by omega
      have e2 : j % 8 = j := by omega
      simp [storedBit_eq, e1, e2, h8]
    · have hj2 : (j - 8) / 8 < xs.length := by
        simp only [List.length_cons] at hj; omega
      have := ih (fun y hy => h y (List.mem_cons_of_mem _ hy)) (j - 8) hj2
      have happ := storedBit_append [x] xs j
      simp only [List.singleton_append, List.length_singleton] at happ
      have hn : ¬ j / 8 < 1 := by omega
      rw [happ, if_neg hn, Nat.mul_one, this]
      simp [h8]

/-- The bytes written for a word are bytes. -/
theorem leBytes_lt (n v : Nat) : ∀ x ∈ leBytes n v, x < 256 := by
  induction n generalizing v with
  | zero => simp [leBytes]
  | succ n ih =>
    intro x hx
    simp only [leBytes, List.mem_cons] at hx
    rcases hx with rfl | hx
    · exact Nat.mod_lt _ (by norm_num)
    · exact ih _ x hx

/-- A word is written as `n` bytes. -/
theorem leBytes_length (n v : Nat) : (leBytes n v).length = n := by
  induction n generalizing v with
  | zero => rfl
  | succ n ih => simp [leBytes, ih]

/-- The stored bits of the bytes written for a word are the bits of the word. -/
theorem storedBit_leBytes (n v j : Nat) (hj : j / 8 < n) :
    storedBit (leBytes n v) j = some (v.testBit j) := by
  induction n generalizing v j with
  | zero => omega
  | succ n ih =>
    by_cases h8 : j < 8
    · have e1 : j / 8 = 0 := by omega
      have e2 : j % 8 = j := by omega
      have : (v % 2 ^ 8).testBit j = v.testBit j := by
        rw [Nat.testBit_mod_two_pow]; simp [h8]
      simp only [leBytes, storedBit_eq, e1, e2]
      simpa using this
    · have hj2 : (j - 8) / 8 < n := by omega
      have happ := storedBit_append [v % 256] (leBytes n (v / 256)) j
      simp only [List.singleton_append, List.length_singleton] at happ
      have hn : ¬ j / 8 < 1 := by omega
      have hdiv : (v / 256).testBit (j - 8) = v.testBit j := by
        have : v / 256 = v >>> 8 := by rw [Nat.shiftRight_eq_div_pow]
        rw [this, Nat.testBit_shiftRight]
        congr 1; omega
      simp only [leBytes]
      rw [happ, if_neg hn, Nat.mul_one, ih _ _ hj2, hdiv]

/-- A bit found by the inner loop is clear in the word and lies in the range searched. -/
theorem findBit_some (word : Nat) (n start bit : Nat)
    (h : findBit word n start = some bit) :
    start ≤ bit ∧ bit < start + n ∧ word.testBit bit = false := by
  induction n generalizing start with
  | zero => simp [findBit] at h
  | succ n ih =>
    simp only [findBit] at h
    split at h
    · rename_i hz
      have hb : start = bit := by simpa using h
      subst hb
      refine ⟨le_refl _, by omega, ?_⟩
      have := congrArg (fun x => x.testBit start) hz
      simpa [Nat.one_shiftLeft, Nat.testBit_two_pow_self] using this
    · obtain ⟨h1, h2, h3⟩ := ih (start + 1) h
      exact ⟨by omega, by omega, h3⟩

/-- Setting a clear bit of word `i` through the `Address *` view sets stored bit
`bit + sz * 8 * i` of the buffer and no other. -/
theorem writeWord_effect (sz : Nat) (map m : List Nat) (i word bit : Nat)
    (hb : ∀ x ∈ map, x < 256) (hr : readWord sz map i = some word) (hbit : bit < sz * 8)
    (hclear : word.testBit bit = false)
    (hw : writeWord sz map i ((word ||| (1 <<< bit)) % 2 ^ (sz * 8)) = some m) :
    storedBit map (bit + sz * 8 * i) = some false ∧
      (∀ j, storedBit m j = if j = bit + sz * 8 * i then some true else storedBit map j) ∧
      m.length = map.length ∧ ∀ x ∈ m, x < 256 := by
  have hle : (i + 1) * sz ≤ map.length := by
    unfold readWord at hr
    by_contra hc
    simp [hc] at hr
  have hA : i * sz + sz = (i + 1) * sz := by rw [Nat.add_mul]; omega
  have hword : leValue ((map.drop (i * sz)).take sz) = word := by
    simpa [readWord, hle] using hr
  have hm : m = map.take (i * sz) ++
      leBytes sz ((word ||| (1 <<< bit)) % 2 ^ (sz * 8)) ++ map.drop ((i + 1) * sz) := by
    simpa [writeWord, hle] using hw.symm
  have hmap : map = map.take (i * sz) ++ (map.drop (i * sz)).take sz ++
      map.drop ((i + 1) * sz) := by
    rw [List.append_assoc, ← hA, ← List.drop_drop, List.take_append_drop,
      List.take_append_drop]
  have hpre : (map.take (i * sz)).length = i * sz := by
    rw [List.length_take]; omega
  have hmid : ((map.drop (i * sz)).take sz).length = sz := by
    rw [List.length_take, List.length_drop]; omega
  have hmidb : ∀ x ∈ (map.drop (i * sz)).take sz, x < 256 := fun x hx =>
    hb x (List.mem_of_mem_drop (List.mem_of_mem_take hx))
  have hkey : ∀ j, storedBit m j =
      if j = bit + sz * 8 * i then some true else storedBit map j := by
    intro j
    rw [hm, storedBit_append3]
    conv => rhs; rw [hmap, storedBit_append3]
    rw [hpre, hmid, leBytes_length]
    by_cases h1 : j / 8 < i * sz
    · have hne : j ≠ bit + sz * 8 * i := by
        intro h; rw [h] at h1
        have : sz * 8 * i = 8 * (i * sz) := by ring
        omega
      simp [h1, hne]
    · by_cases h2 : j / 8 < i * sz + sz
      · have hj : (j - 8 * (i * sz)) / 8 < sz := by omega
        rw [if_neg h1, if_pos h2, if_neg h1, if_pos h2, storedBit_leBytes _ _ _ hj,
          storedBit_leValue _ hmidb _ (by rw [hmid]; exact hj), hword,
          Nat.testBit_mod_two_pow, Nat.testBit_or, Nat.one_shiftLeft, Nat.testBit_two_pow]
        have hlt : j - 8 * (i * sz) < sz * 8 := by omega
        by_cases hjk : j = bit + sz * 8 * i
        · have : j - 8 * (i * sz) = bit := by
            have : sz * 8 * i = 8 * (i * sz) := by ring
            omega
          simp [hjk, this, hbit]
          rw [← hjk, this]; simp [hbit]
        · have : bit ≠ j - 8 * (i * sz) := by
            intro h
            apply hjk
            have : sz * 8 * i = 8 * (i * sz) := by ring
            omega
          simp [hjk, this, hlt]
      · have hne : j ≠ bit + sz * 8 * i := by
          intro h; rw [h] at h2
          have : sz * 8 * i = 8 * (i * sz) := by ring
          omega
        simp [h1, h2, hne]
  refine ⟨?_, hkey, ?_, ?_⟩
  · -- stored bit `bit + sz * 8 * i` before the write is bit `bit` of the word
    have hk8 : sz * 8 * i = 8 * (i * sz) := by ring
    have h1 : ¬ (bit + sz * 8 * i) / 8 < i * sz := by omega
    have h2 : (bit + sz * 8 * i) / 8 < i * sz + sz := by omega
    have hj : (bit + sz * 8 * i - 8 * (i * sz)) / 8 < sz := by omega
    have e : bit + sz * 8 * i - 8 * (i * sz) = bit := by omega
    conv => lhs; rw [hmap, storedBit_append3]
    rw [hpre, hmid, if_neg h1, if_pos h2,
      storedBit_leValue _ hmidb _ (by rw [hmid]; exact hj), hword, e, hclear]
  · rw [hm]
    simp only [List.length_append, List.length_take, List.length_drop, leBytes_length]
    omega
  · intro x hx
    rw [hm] at hx
    simp only [List.mem_append] at hx
    rcases hx with (hx | hx) | hx
    · exact hb x (List.mem_of_mem_take hx)
    · exact leBytes_lt _ _ x hx
    · exact hb x (List.mem_of_mem_drop hx)

/-- What the scan of `markNext` returns for `sizeof(Address) ≤ 4`: either `-1` with the
state unchanged, or the index of a bit that was clear in a word it read, with that bit set
in place by a shift of less than 32 and `free` decremented. -/
theorem scanWords_some (w sz : Nat) (b : BitMap) (n i : Nat) (b1 : BitMap) (r : Int)
    (hsz : sz ≤ 4) (h : scanWords w sz b n i = some (b1, r)) :
    (r = -1 ∧ b1 = b) ∨
      ∃ i1 bit word m, readWord sz b.map i1 = some word ∧ bit < 32 ∧ bit < sz * 8 ∧
        word.testBit bit = false ∧
        writeWord sz b.map i1 ((word ||| (1 <<< bit)) % 2 ^ (sz * 8)) = some m ∧
        b1 = { b with map := m, free := (b.free + 2 ^ w - 1) % 2 ^ w } ∧
        r = ((bit + (sz * 8 * i1) : Nat) : Int) := by
  induction n generalizing i with
  | zero =>
    simp only [scanWords, Option.some.injEq, Prod.mk.injEq] at h
    exact Or.inl ⟨h.2.symm, h.1.symm⟩
  | succ n ih =>
    simp only [scanWords] at h
    cases hr : readWord sz b.map i with
    | none => simp [hr] at h
    | some word =>
      simp only [hr] at h
      by_cases hone : word ≠ 2 ^ (sz * 8) - 1
      · simp only [hone, ne_eq, not_false_eq_true, if_true] at h
        cases hf : findBit word (sz * 8) 0 with
        | none =>
          simp only [hf] at h
          exact ih _ h
        | some bit =>
          simp only [hf] at h
          cases hwr : writeWord sz b.map i ((word ||| (1 <<< bit)) % 2 ^ (sz * 8)) with
          | none => simp [hwr] at h
          | some m =>
            simp only [hwr, Option.some.injEq, Prod.mk.injEq] at h
            obtain ⟨_, hlt, hclear⟩ := findBit_some word _ _ _ hf
            exact Or.inr ⟨i, bit, word, m, hr, by omega, by omega, hclear, hwr, h.1.symm,
              h.2.symm⟩
      · simp only [hone, if_false] at h
        exact ih _ h

/-- The effect of `markNext` on a buffer of bytes for `sizeof(Address) ≤ 4`: either it
returns `-1` and leaves the state as it is, or it returns an index `k` whose stored bit was
0, sets that stored bit and no other, and decrements `free` as a `Size`. -/
theorem markNext_effect (w sz : Nat) (b b1 : BitMap) (r : Int) (hsz : sz ≤ 4)
    (hb : ∀ x ∈ b.map, x < 256) (h : b.markNext w sz = some (b1, r)) :
    (r = -1 ∧ b1 = b) ∨
      ∃ k : Nat, r = (k : Int) ∧ storedBit b.map k = some false ∧
        (∀ j, storedBit b1.map j = if j = k then some true else storedBit b.map j) ∧
        b1.count = b.count ∧ b1.free = (b.free + 2 ^ w - 1) % 2 ^ w ∧
        b1.map.length = b.map.length ∧ ∀ x ∈ b1.map, x < 256 := by
  unfold BitMap.markNext at h
  cases hn : numWords w sz b.count with
  | none => simp [hn] at h
  | some num =>
    simp only [hn] at h
    rcases scanWords_some w sz b num 0 b1 r hsz h with
      h1 | ⟨i1, bit, word, m, hr, _, hbit, hcl, hwr, hb1, hres⟩
    · exact Or.inl h1
    · obtain ⟨e1, e2, e3, e4⟩ := writeWord_effect sz b.map m i1 word bit hb hr hbit hcl hwr
      refine Or.inr ⟨bit + sz * 8 * i1, hres, e1, ?_, ?_, ?_, ?_, ?_⟩ <;> subst hb1 <;>
        first | exact e2 | rfl | exact e3 | exact e4

/-- A `mark` call keeps every stored bit that is set, and keeps the bytes bytes. -/
theorem mark_keeps_bits (w : Nat) (b b1 : BitMap) (i : Nat) (hb : ∀ x ∈ b.map, x < 256)
    (h : b.mark w i = some b1) :
    (∀ j, storedBit b.map j = some true → storedBit b1.map j = some true) ∧
      ∀ x ∈ b1.map, x < 256 := by
  unfold BitMap.mark at h
  by_cases hi : i < b.count
  · simp only [hi, if_true] at h
    cases hm : b.isMarked i with
    | none => simp [hm] at h
    | some v =>
      cases v with
      | true =>
        simp only [hm, Option.some.injEq] at h
        subst h
        exact ⟨fun _ hj => hj, hb⟩
      | false =>
        cases hx : b.map[i / 8]? with
        | none => simp [hm, hx] at h
        | some byte =>
          simp only [hm, hx, Option.some.injEq] at h
          subst h
          constructor
          · intro j hj
            rw [storedBit_eq] at hj ⊢
            simp only [List.getElem?_set]
            by_cases hij : i / 8 = j / 8
            · have hlen : i / 8 < b.map.length := by
                by_contra hc
                rw [List.getElem?_eq_none (by omega)] at hx
                exact absurd hx (by simp)
              rw [← hij, hx] at hj
              have hj2 : byte.testBit (j % 8) = true := by simpa using hj
              have h8 : j % 8 < 8 := Nat.mod_lt _ (by norm_num)
              have hbit : ((byte ||| 1 <<< (i % 8)) % 2 ^ 8).testBit (j % 8) = true := by
                rw [Nat.testBit_mod_two_pow, Nat.testBit_or, hj2]
                simp [h8]
              simpa [hij.symm, hlen] using hbit
            · simp only [hij, if_false]
              exact hj
          · intro x hx2
            rcases List.mem_or_eq_of_mem_set hx2 with h1 | h1
            · exact hb x h1
            · rw [h1]; exact Nat.mod_lt _ (by norm_num)
  · simp [hi] at h

/-- Along a sequence of `mark` and `markNext` calls (`sizeof(Address) ≤ 4`) a stored bit
that is set stays set, and its index is not among the values that the `markNext` calls
return. -/
theorem run_skips_set_bit (w sz k : Nat) (cs : List Call) (b b1 : BitMap) (rs : List Int)
    (hsz : sz ≤ 4) (hb : ∀ x ∈ b.map, x < 256) (hcs : ∀ i, Call.unmark i ∉ cs)
    (hk : storedBit b.map k = some true) (h : b.run w sz cs = some (b1, rs)) :
    (k : Int) ∉ rs := by
  induction cs generalizing b rs with
  | nil =>
    simp only [BitMap.run, Option.some.injEq, Prod.mk.injEq] at h
    rw [← h.2]; simp
  | cons c cs ih =>
    have hcs2 : ∀ i, Call.unmark i ∉ cs := fun i hi => hcs i (List.mem_cons_of_mem _ hi)
    simp only [BitMap.run] at h
    cases hc : b.call w sz c with
    | none => simp [hc] at h
    | some p =>
      obtain ⟨b2, r⟩ := p
      simp only [hc] at h
      cases hrun : b2.run w sz cs with
      | none => simp [hrun] at h
      | some q =>
        obtain ⟨b3, rs2⟩ := q
        simp only [hrun, Option.some.injEq, Prod.mk.injEq] at h
        obtain ⟨hb3, hrs⟩ := h
        subst hb3
        rw [← hrs]
        cases c with
        | unmark i => exact absurd (List.mem_cons_self _ _) (hcs i)
        | mark i =>
          simp only [BitMap.call, Option.map_eq_some'] at hc
          obtain ⟨b4, hmk, he⟩ := hc
          simp only [Prod.mk.injEq] at he
          obtain ⟨e1, e2⟩ := he
          subst e1; subst e2
          obtain ⟨hkeep, hb4⟩ := mark_keeps_bits w b b4 i hb hmk
          simpa using ih b4 rs2 hb4 hcs2 (hkeep k hk) hrun
        | markNext =>
          simp only [BitMap.call, Option.map_eq_some'] at hc
          obtain ⟨p2, hmn, he⟩ := hc
          obtain ⟨b4, r4⟩ := p2
          simp only [Prod.mk.injEq] at he
          obtain ⟨e1, e2⟩ := he
          subst e1; subst e2
          rcases markNext_effect w sz b b4 r4 hsz hb hmn with ⟨hr, hsame⟩ | ⟨k2, hr, hz, hbits, _, _, _, hb4⟩
          · subst hsame
            have hne : (k : Int) ≠ r4 := by rw [hr]; omega
            have := ih b4 rs2 hb hcs2 hk hrun
            simp [hne, this]
          · have hkk : k ≠ k2 := by
              intro e; rw [e, hz] at hk; exact absurd hk (by simp)
            have hk4 : storedBit b4.map k = some true := by
              rw [hbits k, if_neg hkk]; exact hk
            have hne : (k : Int) ≠ r4 := by rw [hr]; omega
            have := ih b4 rs2 hb4 hcs2 hk4 hrun
            simp [hne, this]

/-- On a fresh `BitMap(N)`, `mark(k)` with `k < N` sets stored bit `k`. -/
theorem mark_fresh (w N k : Nat) (hk : k < N) :
    ∃ b0, (BitMap.ctor N).mark w k = some b0 ∧ storedBit b0.map k = some true ∧
      ∀ x ∈ b0.map, x < 256 := by
  have hlt : k / 8 < (N / 8) + 1 := by
    have := Nat.div_le_div_right (c := 8) (Nat.le_of_lt hk)
    omega
  have h8 : k % 8 < 8 := Nat.mod_lt _ (by norm_num)
  refine ⟨⟨N, (N + 2 ^ w - 1) % 2 ^ w,
    (List.replicate ((N / 8) + 1) 0).set (k / 8) ((0 ||| (1 <<< (k % 8))) % 256)⟩, ?_, ?_, ?_⟩
  · simp [BitMap.mark, BitMap.isMarked, BitMap.ctor, hk, List.getElem?_replicate, hlt]
  · have hbit : ((1 <<< (k % 8)) % 2 ^ 8).testBit (k % 8) = true := by
      rw [Nat.testBit_mod_two_pow, Nat.one_shiftLeft, Nat.testBit_two_pow_self]
      simp [h8]
    rw [storedBit_eq]
    simpa [List.getElem?_set, hlt] using hbit
  · intro x hx
    rcases List.mem_or_eq_of_mem_set hx with h1 | h1
    · rw [List.eq_of_mem_replicate h1]; norm_num
    · rw [h1]; exact Nat.mod_lt _ (by norm_num)

/-- A position with a stored bit lies inside the buffer. -/
theorem storedBit_some_lt (map : List Nat) (k : Nat) (v : Bool)
    (h : storedBit map k = some v) : k < map.length * 8 := by
  rw [storedBit_eq] at h
  have hlt : k / 8 < map.length := by
    by_contra hc
    rw [List.getElem?_eq_none (by omega)] at h
    simp at h
  omega

/-- A `mark` call keeps the length of the buffer. -/
theorem mark_length (w : Nat) (b b1 : BitMap) (i : Nat) (h : b.mark w i = some b1) :
    b1.map.length = b.map.length := by
  unfold BitMap.mark at h
  by_cases hi : i < b.count
  · simp only [hi, if_true] at h
    cases hm : b.isMarked i with
    | none => simp [hm] at h
    | some v =>
      cases v with
      | true =>
        simp only [hm, Option.some.injEq] at h
        subst h; rfl
      | false =>
        cases hx : b.map[i / 8]? with
        | none => simp [hm, hx] at h
        | some byte =>
          simp only [hm, hx, Option.some.injEq] at h
          subst h; simp
  · simp [hi] at h

/-- Along a sequence of `mark` and `markNext` calls (`sizeof(Address) ≤ 4`) every value
returned by a `markNext` call is `-1` or the index of a position inside the buffer. -/
theorem run_results_in_buffer (w sz : Nat) (cs : List Call) (b b1 : BitMap)
    (rs : List Int) (hsz : sz ≤ 4) (hb : ∀ x ∈ b.map, x < 256)
    (hcs : ∀ i, Call.unmark i ∉ cs) (h : b.run w sz cs = some (b1, rs)) :
    ∀ r ∈ rs, -1 ≤ r ∧ r < ((b.map.length * 8 : Nat) : Int) := by
  induction cs generalizing b rs with
  | nil =>
    simp only [BitMap.run, Option.some.injEq, Prod.mk.injEq] at h
    rw [← h.2]; simp
  | cons c cs ih =>
    have hcs2 : ∀ i, Call.unmark i ∉ cs := fun i hi => hcs i (List.mem_cons_of_mem _ hi)
    simp only [BitMap.run] at h
    cases hc : b.call w sz c with
    | none => simp [hc] at h
    | some p =>
      obtain ⟨b2, r⟩ := p
      simp only [hc] at h
      cases hrun : b2.run w sz cs with
      | none => simp [hrun] at h
      | some q =>
        obtain ⟨b3, rs2⟩ := q
        simp only [hrun, Option.some.injEq, Prod.mk.injEq] at h
        obtain ⟨hb3, hrs⟩ := h
        subst hb3
        rw [← hrs]
        cases c with
        | unmark i => exact absurd (List.mem_cons_self _ _) (hcs i)
        | mark i =>
          simp only [BitMap.call, Option.map_eq_some'] at hc
          obtain ⟨b4, hmk, he⟩ := hc
          simp only [Prod.mk.injEq] at he
          obtain ⟨e1, e2⟩ := he
          subst e1; subst e2
          obtain ⟨_, hb4⟩ := mark_keeps_bits w b b4 i hb hmk
          have := ih b4 rs2 hb4 hcs2 hrun
          rw [mark_length w b b4 i hmk] at this
          simpa using this
        | markNext =>
          simp only [BitMap.call, Option.map_eq_some'] at hc
          obtain ⟨p2, hmn, he⟩ := hc
          obtain ⟨b4, r4⟩ := p2
          simp only [Prod.mk.injEq] at he
          obtain ⟨e1, e2⟩ := he
          subst e1; subst e2
          rcases markNext_effect w sz b b4 r4 hsz hb hmn with
            ⟨hr, hsame⟩ | ⟨k2, hr, hz, _, _, _, hlen, hb4⟩
          · subst hsame
            have := ih b4 rs2 hb hcs2 hrun
            intro r hmem
            simp only [Option.toList, List.singleton_append, List.mem_cons] at hmem
            rcases hmem with hmem | hmem
            · rw [hmem, hr]; omega
            · exact this r hmem
          · have := ih b4 rs2 hb4 hcs2 hrun
            rw [hlen] at this
            have hk2 := storedBit_some_lt b.map k2 false hz
            intro r hmem
            simp only [Option.toList, List.singleton_append, List.mem_cons] at hmem
            rcases hmem with hmem | hmem
            · rw [hmem, hr]; omega
            · exact this r hmem

/-! ## The accounting, the scan and the frame of the operations -/

/-- C11, evaluated: after `mark(0)` on a fresh `BitMap(1)` the free count is 0 while one
index still has `isMarked` false; after `mark(0); mark(0)` on a fresh `BitMap(2)` the free
count is 0 while one index has `isMarked` false and one stored bit of `[0, 2)` is 0; after
`mark(0); unmark(1)` the free count is 2 while one stored bit is 0. -/
theorem free_count_out_of_step :
    (BitMap.ctor 1).run 32 4 [Call.mark 0] = some (⟨1, 0, [1]⟩, []) ∧
      BitMap.unmarkedCount ⟨1, 0, [1]⟩ = 1 ∧
      (BitMap.ctor 2).run 32 4 [Call.mark 0, Call.mark 0] = some (⟨2, 0, [1]⟩, []) ∧
      BitMap.unmarkedCount ⟨2, 0, [1]⟩ = 1 ∧ zeroBits [1] 2 = 1 ∧
      (BitMap.ctor 2).run 32 4 [Call.mark 0, Call.unmark 1] = some (⟨2, 2, [1]⟩, []) := by
  decide

/-- C12, evaluated: on a fresh `BitMap(2)`, `mark(0); unmark(1); unmark(1)` ends with a free
count of 3, above the capacity; on a fresh `BitMap(3)`, four `mark(0)` calls take the free
count through 2, 1, 0 to `2 ^ 32 - 1`. -/
theorem free_count_leaves_range :
    (BitMap.ctor 2).run 32 4 [Call.mark 0, Call.unmark 1, Call.unmark 1] =
        some (⟨2, 3, [1]⟩, []) ∧
      (BitMap.ctor 3).run 32 4 [Call.mark 0, Call.mark 0, Call.mark 0] =
        some (⟨3, 0, [1]⟩, []) ∧
      BitMap.mark 32 ⟨3, 0, [1]⟩ 0 = some ⟨3, 4294967295, [1]⟩ := by
  decide

/-- C13, evaluated with `sizeof(Address) = 4`: for capacity 33 the buffer has 5 bytes and the
scan bound is 9 words; after 32 `markNext` calls the first word is all ones, so the scan goes
on to word 1, whose bytes 4..7 do not fit (`(1 + 1) * 4 > 5`), and the read has no result.
For capacity 1 word 0 already does not fit the 1-byte buffer. -/
theorem markNext_word_outside_buffer :
    (BitMap.ctor 33).map.length = 5 ∧ numWords 32 4 33 = some 9 ∧
      (BitMap.ctor 33).run 32 4 (List.replicate 32 Call.markNext) =
        some (⟨33, 1, [255, 255, 255, 255, 0]⟩, (List.range 32).map Int.ofNat) ∧
      readWord 4 [255, 255, 255, 255, 0] 0 = some (2 ^ 32 - 1) ∧
      ¬ ((1 + 1) * 4 ≤ (33 / 8) + 1) ∧
      readWord 4 [255, 255, 255, 255, 0] 1 = none ∧
      BitMap.markNext 32 4 ⟨33, 1, [255, 255, 255, 255, 0]⟩ = none ∧
      (BitMap.ctor 1).map.length = 1 ∧ numWords 32 4 1 = some 1 ∧
      readWord 4 (BitMap.ctor 1).map 0 = none := by
  decide

/-- C14: the buffer of the constructor has `(N / 8) + 1` bytes, which is at least 1 and at
least `ceil(N / 8)`; in every state with that buffer and capacity `N`, for every `i < N` the
byte index `i / 8` lies inside the buffer, so `isMarked(i)`, `mark(i)` and `unmark(i)` have
a result, and `mark` and `unmark` keep the capacity and the buffer length. -/
theorem indexed_access_inside_buffer (w N : Nat) :
    (BitMap.ctor N).map.length = (N / 8) + 1 ∧ 1 ≤ (BitMap.ctor N).map.length ∧
      (N + 7) / 8 ≤ (BitMap.ctor N).map.length ∧
      ∀ (b : BitMap) (i : Nat), b.count = N → b.map.length = (N / 8) + 1 → i < N →
        i / 8 < b.map.length ∧ (b.isMarked i).isSome = true ∧
        (b.mark w i).isSome = true ∧ (b.unmark w i).isSome = true ∧
        (∀ b1, b.mark w i = some b1 → b1.count = N ∧ b1.map.length = (N / 8) + 1) ∧
        (∀ b1, b.unmark w i = some b1 → b1.count = N ∧ b1.map.length = (N / 8) + 1) := by
  have hl : (BitMap.ctor N).map.length = (N / 8) + 1 := by simp [BitMap.ctor]
  refine ⟨hl, by omega, by omega, ?_⟩
  intro b i hc hlen hi
  have hlt : i / 8 < (N / 8) + 1 := by
    have := Nat.div_le_div_right (c := 8) (Nat.le_of_lt hi)
    omega
  have hib : i < b.count := by omega
  obtain ⟨x, hx⟩ : ∃ x, b.map[i / 8]? = some x :=
    ⟨b.map[i / 8], List.getElem?_eq_getElem (by omega)⟩
  refine ⟨by omega, ?_, ?_, ?_, ?_, ?_⟩
  · simp [BitMap.isMarked, hib, hx]
  · cases hm : (x &&& i % 8 != 0) <;> simp [BitMap.mark, BitMap.isMarked, hib, hx, hm]
  · cases hm : (x &&& i % 8 != 0) <;> simp [BitMap.unmark, BitMap.isMarked, hib, hx, hm]
  · intro b1 h1
    cases hm : (x &&& i % 8 != 0) <;>
      simp [BitMap.mark, BitMap.isMarked, hib, hx, hm] at h1 <;> subst h1 <;> simp [hc, hlen]
  · intro b1 h1
    cases hm : (x &&& i % 8 != 0) <;>
      simp [BitMap.unmark, BitMap.isMarked, hib, hx, hm] at h1 <;> subst h1 <;> simp [hc, hlen]

/-- C14, at a concrete input: in a state of capacity 9 with the 2-byte buffer, `isMarked(8)`,
`mark(8)` and `unmark(8)` have a result. -/
theorem indexed_access_inside_buffer_witness :
    8 / 8 < (BitMap.mk 9 9 [0, 0]).map.length ∧
      (BitMap.isMarked ⟨9, 9, [0, 0]⟩ 8).isSome = true ∧
      (BitMap.mark 32 ⟨9, 9, [0, 0]⟩ 8).isSome = true ∧
      (BitMap.unmark 32 ⟨9, 9, [0, 0]⟩ 8).isSome = true :=
  have h := (indexed_access_inside_buffer 32 9).2.2.2 ⟨9, 9, [0, 0]⟩ 8 rfl rfl (by decide)
  ⟨h.1, h.2.1, h.2.2.1, h.2.2.2.1⟩

/-- C15, for `sizeof(Address) ≤ 4` and a buffer of at most `2 ^ 31` bits: after `mark(k)` on
a fresh `BitMap(N)` with `k < N`, whatever the number `m` of `markNext` calls that follow,
`k` is not among the values they return; every value returned is `-1` or an index below
`2 ^ 31`, which the signed `Error` holds unchanged. -/
theorem markNext_skips_premarked (w sz N k m : Nat) (b1 : BitMap) (rs : List Int)
    (hsz : sz ≤ 4) (hN : N + 8 ≤ 2 ^ 31) (hk : k < N)
    (hrun : (BitMap.ctor N).run w sz (Call.mark k :: List.replicate m Call.markNext) =
      some (b1, rs)) :
    (k : Int) ∉ rs ∧ ∀ r ∈ rs, -1 ≤ r ∧ r < 2 ^ 31 := by
  obtain ⟨b0, hmk, hbit, hb0⟩ := mark_fresh w N k hk
  have hlen0 : b0.map.length = (N / 8) + 1 := by
    rw [mark_length w _ b0 k hmk]; simp [BitMap.ctor]
  simp only [BitMap.run, BitMap.call, hmk, Option.map_some'] at hrun
  cases h2 : b0.run w sz (List.replicate m Call.markNext) with
  | none => simp [h2] at hrun
  | some q =>
    obtain ⟨b2, rs2⟩ := q
    simp only [h2, Option.some.injEq, Prod.mk.injEq] at hrun
    have hcs : ∀ i, Call.unmark i ∉ List.replicate m Call.markNext := by
      intro i hi
      exact absurd (List.eq_of_mem_replicate hi) (by simp)
    have hskip := run_skips_set_bit w sz k _ b0 b2 rs2 hsz hb0 hcs hbit h2
    have hbound := run_results_in_buffer w sz _ b0 b2 rs2 hsz hb0 hcs h2
    rw [← hrun.2]
    refine ⟨by simpa using hskip, ?_⟩
    intro r hr
    have hr2 : r ∈ rs2 := by simpa using hr
    obtain ⟨h1, h3⟩ := hbound r hr2
    rw [hlen0] at h3
    refine ⟨h1, ?_⟩
    have h4 : (((N / 8 + 1) * 8 : Nat) : Int) ≤ ((2 ^ 31 : Nat) : Int) := by
      have : (N / 8 + 1) * 8 ≤ 2 ^ 31 := by omega
      exact_mod_cast this
    have h5 : ((2 ^ 31 : Nat) : Int) = 2 ^ 31 := by norm_num
    omega

/-- C15, at a concrete input: on a fresh `BitMap(24)` with 4-byte words, `mark(3)` and five
`markNext` calls return 0, 1, 2, 4, 5, not 3. -/
theorem markNext_skips_premarked_witness :
    4 ≤ 4 ∧ 24 + 8 ≤ 2 ^ 31 ∧ 3 < 24 ∧
      (BitMap.ctor 24).run 32 4 (Call.mark 3 :: List.replicate 5 Call.markNext) =
        some (⟨24, 18, [63, 0, 0, 0]⟩, [0, 1, 2, 4, 5]) ∧
      (((3 : Nat) : Int) ∉ [(0 : Int), 1, 2, 4, 5] ∧
        ∀ r ∈ [(0 : Int), 1, 2, 4, 5], -1 ≤ r ∧ r < 2 ^ 31) :=
  ⟨by decide, by decide, by decide, by decide,
    markNext_skips_premarked 32 4 24 3 5 ⟨24, 18, [63, 0, 0, 0]⟩ [0, 1, 2, 4, 5]
      (by decide) (by decide) (by decide) (by decide)⟩

/-- C16, for `sizeof(Address) ≤ 4` and a buffer of bytes with at most `2 ^ 31` bits: two
`markNext` calls in a row that both return an index return different indices; in any
sequence of `markNext` and `mark` calls (no `unmark`), the indices returned by the
`markNext` calls are pairwise different; and every value returned is `-1` or an index below
`2 ^ 31`, which the signed `Error` holds unchanged. -/
theorem markNext_never_repeats (w sz : Nat) (b : BitMap) (hsz : sz ≤ 4)
    (hlen : b.map.length * 8 ≤ 2 ^ 31) (hb : ∀ x ∈ b.map, x < 256) :
    (∀ b1 r1 b2 r2, b.markNext w sz = some (b1, r1) → b1.markNext w sz = some (b2, r2) →
        r1 ≠ -1 → r2 ≠ -1 → r1 ≠ r2) ∧
      (∀ cs b1 rs, (∀ i, Call.unmark i ∉ cs) → b.run w sz cs = some (b1, rs) →
        (rs.filter (fun r => r != -1)).Nodup) ∧
      ∀ cs b1 rs, (∀ i, Call.unmark i ∉ cs) → b.run w sz cs = some (b1, rs) →
        ∀ r ∈ rs, -1 ≤ r ∧ r < 2 ^ 31 := by
  refine ⟨?_, ?_, ?_⟩
  · intro b1 r1 b2 r2 h1 h2 hn1 hn2
    rcases markNext_effect w sz b b1 r1 hsz hb h1 with
      ⟨hr, _⟩ | ⟨k1, hr1, _, hbits1, _, _, _, hb1⟩
    · exact absurd hr hn1
    · rcases markNext_effect w sz b1 b2 r2 hsz hb1 h2 with ⟨hr, _⟩ | ⟨k2, hr2, hz2, _⟩
      · exact absurd hr hn2
      · intro e
        have hk : k1 = k2 := by rw [hr1, hr2] at e; exact_mod_cast e
        have := hbits1 k1
        rw [if_pos rfl, hk, hz2] at this
        exact absurd this (by simp)
  · clear hlen
    intro cs
    induction cs generalizing b with
    | nil =>
      intro b1 rs _ h
      simp only [BitMap.run, Option.some.injEq, Prod.mk.injEq] at h
      rw [← h.2]; simp
    | cons c cs ih =>
      intro b1 rs hcs h
      have hcs2 : ∀ i, Call.unmark i ∉ cs := fun i hi => hcs i (List.mem_cons_of_mem _ hi)
      simp only [BitMap.run] at h
      cases hc : b.call w sz c with
      | none => simp [hc] at h
      | some p =>
        obtain ⟨b2, r⟩ := p
        simp only [hc] at h
        cases hrun : b2.run w sz cs with
        | none => simp [hrun] at h
        | some q =>
          obtain ⟨b3, rs2⟩ := q
          simp only [hrun, Option.some.injEq, Prod.mk.injEq] at h
          obtain ⟨hb3, hrs⟩ := h
          subst hb3
          rw [← hrs]
          cases c with
          | unmark i => exact absurd (List.mem_cons_self _ _) (hcs i)
          | mark i =>
            simp only [BitMap.call, Option.map_eq_some'] at hc
            obtain ⟨b4, hmk, he⟩ := hc
            simp only [Prod.mk.injEq] at he
            obtain ⟨e1, e2⟩ := he
            subst e1; subst e2
            obtain ⟨_, hb4⟩ := mark_keeps_bits w b b4 i hb hmk
            simpa using ih b4 hb4 b3 rs2 hcs2 hrun
          | markNext =>
            simp only [BitMap.call, Option.map_eq_some'] at hc
            obtain ⟨p2, hmn, he⟩ := hc
            obtain ⟨b4, r4⟩ := p2
            simp only [Prod.mk.injEq] at he
            obtain ⟨e1, e2⟩ := he
            subst e1; subst e2
            rcases markNext_effect w sz b b4 r4 hsz hb hmn with
              ⟨hr, hsame⟩ | ⟨k2, hr, _, hbits, _, _, _, hb4⟩
            · subst hsame
              have := ih b4 hb b3 rs2 hcs2 hrun
              simpa [hr] using this
            · have hk4 : storedBit b4.map k2 = some true := by
                rw [hbits k2, if_pos rfl]
              have hnot := run_skips_set_bit w sz k2 cs b4 b3 rs2 hsz hb4 hcs2 hk4 hrun
              have hnd := ih b4 hb4 b3 rs2 hcs2 hrun
              have hne : (r4 != -1) = true := by rw [hr]; simp
              simp only [Option.toList, List.singleton_append, List.filter_cons, hne, if_true]
              refine List.nodup_cons.mpr ⟨?_, hnd⟩
              intro hmem
              rw [hr] at hmem
              exact hnot (List.mem_filter.mp hmem).1
  · intro cs b1 rs hcs h r hr
    obtain ⟨h1, h3⟩ := run_results_in_buffer w sz cs b b1 rs hsz hb hcs h r hr
    refine ⟨h1, ?_⟩
    have h4 : ((b.map.length * 8 : Nat) : Int) ≤ ((2 ^ 31 : Nat) : Int) := by
      exact_mod_cast hlen
    have h5 : ((2 ^ 31 : Nat) : Int) = 2 ^ 31 := by norm_num
    omega

/-- C16, at a concrete input: on a fresh `BitMap(24)` with 4-byte words, `markNext; mark(2);
markNext; markNext` returns 0, 1, 3, no index twice. -/
theorem markNext_never_repeats_witness :
    4 ≤ 4 ∧ (BitMap.ctor 24).map.length * 8 ≤ 2 ^ 31 ∧
      (∀ x ∈ (BitMap.ctor 24).map, x < 256) ∧
      (BitMap.ctor 24).run 32 4 [Call.markNext, Call.mark 2, Call.markNext, Call.markNext] =
        some (⟨24, 20, [15, 0, 0, 0]⟩, [0, 1, 3]) ∧
      ([(0 : Int), 1, 3].filter (fun r => r != -1)).Nodup :=
  ⟨by decide, by decide, by decide, by decide,
    (markNext_never_repeats 32 4 (BitMap.ctor 24) (by decide) (by decide) (by decide)).2.1
      [Call.markNext, Call.mark 2, Call.markNext, Call.markNext] ⟨24, 20, [15, 0, 0, 0]⟩
      [0, 1, 3] (by intro i hi; simp at hi) (by decide)⟩

/-- C17, evaluated with `sizeof(Address) = 4`: 30 `markNext` calls on a fresh `BitMap(30)`
return 0, ..., 29 and leave every bit of `[0, 30)` set with a free count of 0; the next
`markNext` returns the index 30, which is not below the capacity, and the free count becomes
`2 ^ 32 - 1`, which is not lower by 1. -/
theorem markNext_free_wraps_at_zero :
    (BitMap.ctor 30).run 32 4 (List.replicate 30 Call.markNext) =
        some (⟨30, 0, [255, 255, 255, 63]⟩, (List.range 30).map Int.ofNat) ∧
      (∀ i < 30, storedBit [255, 255, 255, 63] i = some true) ∧
      BitMap.markNext 32 4 ⟨30, 0, [255, 255, 255, 63]⟩ =
        some (⟨30, 4294967295, [255, 255, 255, 127]⟩, 30) ∧
      ¬ (BitMap.free ⟨30, 4294967295, [255, 255, 255, 127]⟩ + 1 =
        BitMap.free ⟨30, 0, [255, 255, 255, 63]⟩) := by
  decide

/-- C18, evaluated on `BitMap(16)` after `mark(8)` (free count 15, stored bit 8 set, stored
bit 9 clear): `mark(8)` lowers the free count to 14 although stored bit 8 was 1, `unmark(9)`
raises it to 16 although stored bit 9 was 0, and `unmark(8)` does not raise it although
stored bit 8 was 1. -/
theorem mark_unmark_count_by_wrong_bit :
    (BitMap.ctor 16).mark 32 8 = some ⟨16, 15, [0, 1, 0]⟩ ∧
      storedBit [0, 1, 0] 8 = some true ∧ storedBit [0, 1, 0] 9 = some false ∧
      BitMap.mark 32 ⟨16, 15, [0, 1, 0]⟩ 8 = some ⟨16, 14, [0, 1, 0]⟩ ∧
      BitMap.unmark 32 ⟨16, 15, [0, 1, 0]⟩ 9 = some ⟨16, 16, [0, 1, 0]⟩ ∧
      BitMap.unmark 32 ⟨16, 15, [0, 1, 0]⟩ 8 = some ⟨16, 15, [0, 1, 0]⟩ := by
  decide

/-- C19: for every capacity `N` (a `Size` of `w > 0` bits, `sizeof(Address) ≥ 2`), the scan
bound of `markNext` is computed without a remainder by zero, is at least 1, and covers the
map: `num * sizeof(Address) * 8 ≥ N`. -/
theorem numWords_bound (w sz N : Nat) (hw : 0 < w) (hsz : 2 ≤ sz) (hN : N < 2 ^ w) :
    ∃ num, numWords w sz N = some num ∧ 1 ≤ num ∧ N ≤ num * sz * 8 := by
  have h2 : 2 ≤ 2 ^ w := by
    calc 2 = 2 ^ 1 := by norm_num
      _ ≤ 2 ^ w := Nat.pow_le_pow_right (by norm_num) hw
  have hdm := Nat.div_add_mod N sz
  have hml : N % sz < sz := Nat.mod_lt _ (by omega)
  have hdle : N / sz * 2 ≤ N := by
    calc N / sz * 2 ≤ N / sz * sz := Nat.mul_le_mul_left _ hsz
      _ ≤ N := Nat.div_mul_le_self N sz
  have hlt : N < (N / sz + 1) * sz := by
    have : sz * (N / sz) = N / sz * sz := Nat.mul_comm _ _
    rw [Nat.add_mul]; omega
  unfold numWords
  by_cases h0 : N / sz = 0
  · refine ⟨1, ?_, le_refl _, ?_⟩
    · simp [h0, Nat.mod_eq_of_lt h2]
    · rw [h0] at hlt; omega
  · have hN0 : N ≠ 0 := by
      intro h; apply h0; simp [h]
    by_cases hr : sz % N ≠ 0
    · refine ⟨N / sz + 1, ?_, by omega, by omega⟩
      have : (N / sz + 1) % 2 ^ w = N / sz + 1 := Nat.mod_eq_of_lt (by omega)
      simp [h0, hN0, hr, this]
    · have hge : sz ≤ N := by
        by_contra hc
        exact h0 (Nat.div_eq_of_lt (by omega))
      have heq : N = sz := by
        by_contra hne
        exact hr (by rw [Nat.mod_eq_of_lt (by omega)]; omega)
      refine ⟨N / sz, ?_, ?_, ?_⟩
      · simp [h0, hN0]
        intro h; exact absurd h hr
      · omega
      · subst heq
        rw [Nat.div_self (by omega)]; omega

/-- C19, at a concrete input: for capacity 65 and 4-byte words the bound is at least 1 and
covers 65 bits. -/
theorem numWords_bound_witness :
    ∃ num, numWords 32 4 65 = some num ∧ 1 ≤ num ∧ 65 ≤ num * 4 * 8 :=
  numWords_bound 32 4 65 (by decide) (by decide) (by decide)

/-- C20: for `i < N` and two states of capacity `N` whose stored bits agree at every
position other than `i`, `isMarked(i)` returns the same in both; `isMarked(i)` returns
`false` whenever `i % 8 = 0` and the byte is inside the buffer; and on a fresh `BitMap(N)`,
`mark(i)` followed by `isMarked(i)` returns `false`. -/
theorem isMarked_ignores_own_bit (w N i : Nat) (b1 b2 : BitMap) (hi : i < N)
    (hc1 : b1.count = N) (hc2 : b2.count = N)
    (hdiff : ∀ j, j ≠ i → storedBit b1.map j = storedBit b2.map j) :
    b1.isMarked i = b2.isMarked i ∧
      (i % 8 = 0 → i / 8 < b1.map.length → b1.isMarked i = some false) ∧
      ((BitMap.ctor N).mark w i).bind (fun b => b.isMarked i) = some false := by
  have hk : i % 8 < 8 := Nat.mod_lt _ (by norm_num)
  have hdm := Nat.div_add_mod i 8
  refine ⟨?_, ?_, ?_⟩
  · -- the bits of byte `i / 8` other than bit `i % 8` are the same in both states
    have hbits : ∀ t, t < 8 → t ≠ i % 8 →
        (b1.map[i / 8]?).map (fun byte => byte.testBit t) =
          (b2.map[i / 8]?).map (fun byte => byte.testBit t) := by
      intro t ht htk
      have h := hdiff (8 * (i / 8) + t) (by omega)
      rw [storedBit_eq, storedBit_eq] at h
      have e1 : (8 * (i / 8) + t) / 8 = i / 8 := by omega
      have e2 : (8 * (i / 8) + t) % 8 = t := by omega
      rw [e1, e2] at h
      exact h
    have h1 : i < b1.count := by omega
    have h2 : i < b2.count := by omega
    simp only [BitMap.isMarked, h1, h2, if_true]
    have hne : (i % 8 + 1) % 8 ≠ i % 8 := by omega
    have hlt : (i % 8 + 1) % 8 < 8 := Nat.mod_lt _ (by norm_num)
    cases hx : b1.map[i / 8]? with
    | none =>
      cases hy : b2.map[i / 8]? with
      | none => rfl
      | some y =>
        have := hbits _ hlt hne
        simp [hx, hy] at this
    | some x =>
      cases hy : b2.map[i / 8]? with
      | none =>
        have := hbits _ hlt hne
        simp [hx, hy] at this
      | some y =>
        have hxy : x &&& i % 8 = y &&& i % 8 := by
          apply and_offset_congr x y (i % 8) hk
          intro t ht htk
          have := hbits t ht htk
          simpa [hx, hy] using this
        simp [hxy]
  · intro h0 hlen
    have h1 : i < b1.count := by omega
    obtain ⟨x, hx⟩ : ∃ x, b1.map[i / 8]? = some x :=
      ⟨b1.map[i / 8], List.getElem?_eq_getElem hlen⟩
    simp [BitMap.isMarked, h1, hx, h0]
  · have hlt : i / 8 < (N / 8) + 1 := by
      have := Nat.div_le_div_right (c := 8) (Nat.le_of_lt hi)
      omega
    have hand : (1 <<< (i % 8)) % 256 &&& i % 8 = 0 := by
      have : ∀ k, k < 8 → (1 <<< k) % 256 &&& k = 0 := by decide
      exact this _ hk
    simp [BitMap.mark, BitMap.isMarked, BitMap.ctor, hi, List.getElem?_replicate, hlt, hand]

/-- C20, at a concrete input: the buffers `[1]` and `[3]` differ in stored bit 1 only, and
`isMarked(1)` returns the same for both. -/
theorem isMarked_ignores_own_bit_witness :
    BitMap.isMarked ⟨2, 1, [1]⟩ 1 = BitMap.isMarked ⟨2, 1, [3]⟩ 1 ∧
      (1 % 8 = 0 → 1 / 8 < [1].length → BitMap.isMarked ⟨2, 1, [1]⟩ 1 = some false) ∧
      ((BitMap.ctor 2).mark 32 1).bind (fun b => b.isMarked 1) = some false :=
  isMarked_ignores_own_bit 32 2 1 ⟨2, 1, [1]⟩ ⟨2, 1, [3]⟩ (by decide) rfl rfl (by
    intro j hj
    by_cases h8 : j < 8
    · interval_cases j <;> first | exact absurd rfl hj | decide
    · have h1 : [1].length ≤ j / 8 := by simp; omega
      have h3 : [3].length ≤ j / 8 := by simp; omega
      rw [storedBit_eq, storedBit_eq, List.getElem?_eq_none h1, List.getElem?_eq_none h3])
